import Mathlib

/-!
A verification development for the Klocwork web-API client
(`src/lib/klocwork/webapi.py` and `src/klocwork_snapshot.py`).

The Python code is shallowly embedded: decoded JSON values become the
inductive type `JVal`; Python dicts become insertion-ordered association
lists with unique keys; in-place mutation (`dict.update`, assignment to
fields of issue records) becomes explicit state passing; Python runtime
errors (`KeyError`, `IndexError`, ...) become `Except PyErr` results.
The HTTP transport (`urllib2.urlopen` plus line-by-line `json.loads`)
is abstracted as an oracle function from a URL and a parameter dict to
the list of decoded records, and `socket.getfqdn` and `os.path.relpath`
(which depend on DNS and on the process working directory) are likewise
oracle parameters.  All other operations are translated directly from
the source.  Paths follow POSIX rules (`os.sep` is the forward slash),
matching the platform the tool runs on.
-/

set_option autoImplicit false

namespace Klocwork

/-- A decoded JSON value as manipulated by the client: strings, integers,
arrays and objects.  Floats, booleans and null do not occur in any code
path the claims touch and are omitted. -/
inductive JVal where
  | s : String → JVal
  | n : Int → JVal
  | arr : List JVal → JVal
  | obj : List (String × JVal) → JVal

/-- The Python runtime errors the embedded code can raise. -/
inductive PyErr where
  | keyError : PyErr
  | indexError : PyErr
  | typeError : PyErr
  | attributeError : PyErr
deriving DecidableEq

mutual

/-- Python `==` on decoded JSON values (structural equality). -/
def jeq : JVal → JVal → Bool
  | .s a, .s b => a == b
  | .n a, .n b => a == b
  | .arr a, .arr b => jeqArr a b
  | .obj a, .obj b => jeqObj a b
  | _, _ => false

/-- Python `==` on decoded JSON arrays. -/
def jeqArr : List JVal → List JVal → Bool
  | [], [] => true
  | x :: xs, y :: ys => jeq x y && jeqArr xs ys
  | _, _ => false

/-- Python `==` on decoded JSON objects. -/
def jeqObj : List (String × JVal) → List (String × JVal) → Bool
  | [], [] => true
  | (k, v) :: xs, (l, w) :: ys => k == l && jeq v w && jeqObj xs ys
  | _, _ => false

end

/-- Python truthiness of a decoded JSON value (`if not x` tests). -/
def pyFalsy : JVal → Bool
  | .s a => a == ""
  | .n i => i == 0
  | .arr l => l.isEmpty
  | .obj l => l.isEmpty

/-- Python `str()` of a decoded JSON value, as used for building the
issue-table keys `str(issue['id'])`.  Ids are strings or integers in
every response shape the client handles; `str()` of containers is not
modelled precisely (no claim depends on it). -/
def pyStr : JVal → String
  | .s a => a
  | .n i => toString i
  | .arr _ => "<list>"
  | .obj _ => "<dict>"

/-- A decoded JSON object / Python dict with string keys: an
insertion-ordered association list (Python dicts hold each key once). -/
abbrev Rec := List (String × JVal)

/-- Python `d[k]` / `d.get(k)` on a string-keyed dict: the value at the
first (unique) occurrence of the key. -/
def rget : Rec → String → Option JVal
  | [], _ => none
  | (k₀, v) :: r, k => if k₀ = k then some v else rget r k

/-- Python `d[k] = v` on a string-keyed dict: overwrite the existing
entry in place, else append a new entry. -/
def rset : Rec → String → JVal → Rec
  | [], k, v => [(k, v)]
  | (k₀, v₀) :: r, k, v => if k₀ = k then (k₀, v) :: r else (k₀, v₀) :: rset r k v

/-- Python `d.update(other)`: insert each of `other`'s entries in order,
overwriting equal-named keys. -/
def rupdate (r other : Rec) : Rec :=
  other.foldl (fun acc e => rset acc e.1 e.2) r

/-- The issue table `issues_table`: a Python dict whose keys are decoded
JSON values (the code always inserts `str(...)` keys). -/
abbrev Table := List (JVal × Rec)

/-- Python `d[k]` on the issue table (keys compared with Python `==`). -/
def tget : Table → JVal → Option Rec
  | [], _ => none
  | (k₀, v) :: t, k => if jeq k₀ k then some v else tget t k

/-- Python `d[k] = v` on the issue table. -/
def tset : Table → JVal → Rec → Table
  | [], k, v => [(k, v)]
  | (k₀, v₀) :: t, k, v => if jeq k₀ k then (k₀, v) :: t else (k₀, v₀) :: tset t k v

/-- Python whitespace, as stripped by `str.strip()`. -/
def pyWhitespace (c : Char) : Bool :=
  c = ' ' ∨ c = '\t' ∨ c = '\n' ∨ c = '\r' ∨ c = '\x0b' ∨ c = '\x0c'

/-- Python `s.strip()`. -/
def pyStrip (s : List Char) : List Char :=
  ((s.dropWhile pyWhitespace).reverse.dropWhile pyWhitespace).reverse

/-- `entry.strip().split(';')` (webapi.py:47). -/
def splitFields (entry : String) : List String :=
  ((pyStrip entry.toList).splitOn ';').map String.mk

/-- The `return values[3], values[2]` step of `get_token`: Python evaluates
the subscripts before returning, so a line with fewer than four fields
raises `IndexError` here. -/
def token_entry_return (values : List String) : Except PyErr (Option String × Option String) :=
  match values[3]?, values[2]? with
  | some v3, some v2 => .ok (some v3, some v2)
  | _, _ => .error .indexError

/-- The scanning loop of `get_token` (webapi.py:46-51), with `host` already
normalized.  Python's short-circuit `and` is preserved: `values[1]` is only
subscripted once the host comparison succeeds, and `values[2]` only when a
truthy preferred user is present (or at the `return`). -/
def get_token_scan (fqdn : String → String) (host : String) (port : Nat)
    (preferred_user : Option String) :
    List String → Except PyErr (Option String × Option String)
  | [] => .ok (none, none)
  | entry :: rest =>
    let values := splitFields entry
    if fqdn (values.headD "") = host then
      match values[1]? with
      | none => .error .indexError
      | some v1 =>
        if v1 = toString port then
          match preferred_user with
          | some pu =>
            if pu ≠ "" then
              match values[2]? with
              | none => .error .indexError
              | some v2 =>
                if v2 ≠ pu then get_token_scan fqdn host port preferred_user rest
                else token_entry_return values
            else token_entry_return values
          | none => token_entry_return values
        else get_token_scan fqdn host port preferred_user rest
    else get_token_scan fqdn host port preferred_user rest

/-- Embeds `get_token` (webapi.py:31-52).  `fqdn` abstracts
`socket.getfqdn` (it consults DNS); `lines` is the sequence of lines
obtained by iterating the `~/.klocwork/ltoken` file; `(none, none)` is the
Python `None, None` "not found" return. -/
def get_token (fqdn : String → String) (lines : List String) (host : String)
    (port : Nat) (preferred_user : Option String) :
    Except PyErr (Option String × Option String) :=
  get_token_scan fqdn (fqdn host) port preferred_user lines

/-- Modelled from the spec's Token Store Reader contract (spec 4.1, 8.1),
for comparison with `get_token`: the token/user pair of the first line
whose normalized host and stringified port match, respecting the optional
user filter; "not found" if none match. -/
def token_line_matches (fqdn : String → String) (host : String) (port : Nat)
    (preferred_user : Option String) (entry : String) : Bool :=
  let values := splitFields entry
  fqdn (values.headD "") == fqdn host && values.getD 1 "" == toString port &&
    (match preferred_user with
     | some pu => pu == "" || values.getD 2 "" == pu
     | none => true)

/-- Modelled from the spec's Token Store Reader contract (spec 4.1, 8.1):
the first-match selection itself. -/
def get_token_spec (fqdn : String → String) (lines : List String) (host : String)
    (port : Nat) (preferred_user : Option String) : Option String × Option String :=
  match lines.find? (token_line_matches fqdn host port preferred_user) with
  | some entry =>
    let values := splitFields entry
    (some (values.getD 3 ""), some (values.getD 2 ""))
  | none => (none, none)

/-- The downward scan of Python `str.rfind`: the highest index `i ≤ n` at
which `pat` occurs in `s`. -/
def rfindAux (pat s : List Char) : Nat → Option Nat
  | 0 => if pat.isPrefixOf s then some 0 else none
  | n + 1 => if pat.isPrefixOf (s.drop (n + 1)) then some (n + 1) else rfindAux pat s n

/-- Python `path.rfind(pat)`: the highest index at which `pat` occurs as a
substring (`none` for Python's `-1`). -/
def rfind (pat s : List Char) : Option Nat := rfindAux pat s s.length

/-- POSIX `os.path.normpath` (`posixpath.normpath`), ported clause by
clause: empty path becomes `.`, one or two (but not three or more) leading
slashes are remembered, components `''` and `.` are dropped, `..` pops the
previous component where allowed. -/
def normpath (path : List Char) : List Char :=
  if path = [] then ['.']
  else
    let initial_slashes : Nat :=
      if path.take 1 = ['/'] then
        if path.take 2 = ['/', '/'] ∧ path.take 3 ≠ ['/', '/', '/'] then 2 else 1
      else 0
    let comps := path.splitOn '/'
    let new_comps := comps.foldl
      (fun acc comp =>
        if comp = [] ∨ comp = ['.'] then acc
        else if comp ≠ ['.', '.'] ∨ (initial_slashes = 0 ∧ acc = []) ∨
                (acc ≠ [] ∧ acc.getLast? = some ['.', '.']) then acc ++ [comp]
        else if acc ≠ [] then acc.dropLast
        else acc)
      []
    let joined := List.intercalate ['/'] new_comps
    let out := List.replicate initial_slashes '/' ++ joined
    if out = [] then ['.'] else out

/-- Embeds `strip_path` (webapi.py:55-70) on a POSIX platform
(`os.sep` is `'/'`): return the suffix of `path` starting at the last
occurrence of `os.sep + os.path.normpath(root) + os.sep` for the first
root that occurs, the unchanged path otherwise. -/
def strip_path (path : List Char) : List (List Char) → List Char
  | [] => path
  | root :: roots =>
    match rfind (['/'] ++ normpath root ++ ['/']) path with
    | some pos => path.drop pos
    | none => strip_path path roots

/-- The HTTP transport oracle: abstracts `urllib2.urlopen` of a form-encoded
POST request plus the line-by-line `json.loads` decoding loop, mapping the
URL and the merged parameter dict to the decoded records. -/
abbrev Transport := String → Rec → List Rec

/-- Embeds `fetch` (webapi.py:73-83): `params.update(common_params)`
mutates the caller's dict, then one request is issued with the merged
parameters.  Returns the post-state of `params` with the decoded records. -/
def fetch (transport : Transport) (url : String) (params common_params : Rec) :
    Rec × List Rec :=
  let params := rupdate params common_params
  (params, transport url params)

/-- `MAX_PARALLEL_FETCH_COUNT` (webapi.py:28). -/
def MAX_PARALLEL_FETCH_COUNT : Nat := 20

/-- Embeds the `MultiFetchHelper` worker object (webapi.py:86-114). -/
structure MultiFetchHelper where
  url : String

/-- Embeds `MultiFetchHelper.fetch` (webapi.py:99-114): one worker task.
It only issues the request and decodes the response; it does not touch the
parameter dict or any shared state. -/
def MultiFetchHelper.fetch (self : MultiFetchHelper) (transport : Transport)
    (params : Rec) : List Rec :=
  transport self.url params

/-- Post-states of the `for p in params: p.update(common_params)` loop at
the top of `multifetch` (webapi.py:121-122): every caller dict is mutated
before any dispatch. -/
def multifetch_params (params : List Rec) (common_params : Rec) : List Rec :=
  params.map (fun p => rupdate p common_params)

/-- `threads = min(len(params), MAX_PARALLEL_FETCH_COUNT)` (webapi.py:123). -/
def multifetch_threads (params : List Rec) : Nat :=
  min params.length MAX_PARALLEL_FETCH_COUNT

/-- The worker pool `multifetch` creates: `some n` for `ThreadPool(n)` when
`threads > 0`, `none` when the empty sequence is returned with no pool
(webapi.py:124-127). -/
def multifetch_pool (params : List Rec) : Option Nat :=
  if multifetch_threads params > 0 then some (multifetch_threads params) else none

/-- Embeds `multifetch` (webapi.py:117-127): the results of the dispatched
worker tasks in submission order — one `MultiFetchHelper.fetch` call per
(already updated) parameter dict — or the empty list when no pool is
created. -/
def multifetch (transport : Transport) (url : String) (params : List Rec)
    (common_params : Rec) : List (List Rec) :=
  if multifetch_threads params > 0 then
    (multifetch_params params common_params).map
      ((MultiFetchHelper.mk url).fetch transport)
  else []

/-- The `imap_unordered` iterator hands results to the caller in completion
order, not submission order: `ord` lists the task positions in the order
their results are yielded (an arbitrary permutation of the positions,
left abstract because thread timing is). -/
def multifetch_yield (transport : Transport) (url : String) (params : List Rec)
    (common_params : Rec) (ord : List Nat) : List (List Rec) :=
  ord.map (fun i => (multifetch transport url params common_params).getD i [])

/-- `os.path.normpath` on a Python string (POSIX). -/
def normpathS (s : String) : String := String.mk (normpath s.toList)

/-- Python `s.replace('\\', '/')` (webapi.py:207). -/
def replaceBackslashes (s : String) : String :=
  String.mk (s.toList.map (fun c => if c = '\\' then '/' else c))

/-- The Phase-1 loop of `get_klocwork_issues` (webapi.py:175-183): build
`issues_table` keyed by `str(issue['id'])` and append one detail request
per issue, carrying the original (unstringified) id value.  `issue['id']`
on a record without an id raises `KeyError`. -/
def build_phase1 (project : String) :
    List Rec → Table → List Rec → Except PyErr (Table × List Rec)
  | [], issues_table, reqs => .ok (issues_table, reqs)
  | issue :: rest, issues_table, reqs =>
    match rget issue "id" with
    | none => .error .keyError
    | some v =>
      build_phase1 project rest (tset issues_table (.s (pyStr v)) issue)
        (reqs ++ [[("action", .s "issue_details"), ("project", .s project), ("id", v)]])

/-- `issues_table[r['id']].update(r)` (webapi.py:188): find the entry whose
key is Python-equal to `r['id']` and update that issue record in place; a
missing key raises `KeyError`.  No entry is ever created here. -/
def tmerge : Table → JVal → Rec → Except PyErr Table
  | [], _, _ => .error .keyError
  | (k, entry) :: t, i, r =>
    if jeq k i then .ok ((k, rupdate entry r) :: t)
    else (tmerge t i r).map (fun t' => (k, entry) :: t')

/-- One detail record's merge step, `issues_table[r['id']].update(r)`,
including the `r['id']` subscript itself. -/
def merge_one (issues_table : Table) (r : Rec) : Except PyErr Table :=
  match rget r "id" with
  | none => .error .keyError
  | some i => tmerge issues_table i r

/-- The nested detail-merge loops of `get_klocwork_issues`
(webapi.py:186-188), over the detail responses in the order the iterator
yields them. -/
def merge_details (issues_table : Table) (responses : List (List Rec)) :
    Except PyErr Table :=
  responses.foldlM (fun acc response => response.foldlM merge_one acc) issues_table

/-- The relpath oracle: `os.path.relpath` consults the process working
directory, so it is abstract here; `none` models an exception from it,
which the bare `except` at webapi.py:204-205 swallows. -/
abbrev RelpathOracle := String → String → Option String

/-- The per-issue derivation loop body of `get_klocwork_issues`
(webapi.py:191-207): derive `comment` from
`issue.get('history', [{}])[0].get('comment', '')` (an `IndexError` when
`history` is present but empty), derive `dispositioned` from the
truthiness of the comment and the `'Analyze'` literal (with Python's
short-circuit `or`, so `issue['code']` is only read when the comment is
truthy), then normalize `location`. -/
def derive_issue (relpath : RelpathOracle) (project_root : Option String)
    (issue : Rec) : Except PyErr Rec := do
  let hist := (rget issue "history").getD (.arr [.obj []])
  let first ← match hist with
    | .arr [] => .error .indexError
    | .arr (x :: _) => .ok x
    | _ => .error .typeError
  let comment ← match first with
    | .obj o => .ok ((rget o "comment").getD (.s ""))
    | _ => .error .attributeError
  let issue := rset issue "comment" comment
  let c ← match rget issue "comment" with
    | some c => .ok c
    | none => .error .keyError
  let dispo ←
    if pyFalsy c then .ok (JVal.s "no")
    else match rget issue "code" with
      | none => .error .keyError
      | some code => .ok (if jeq code (.s "Analyze") then JVal.s "no" else .s "yes")
  let issue := rset issue "dispositioned" dispo
  let locv ← match rget issue "location" with
    | some l => .ok l
    | none => .error .keyError
  let location ← match locv with
    | .s l => .ok (normpathS l)
    | _ => .error .typeError
  let relp := match project_root with
    | some root => if root ≠ "" then (relpath location root).getD location else location
    | none => location
  .ok (rset issue "location" (.s (replaceBackslashes relp)))

/-- Embeds `KlocworkWebApi.get_klocwork_issues` (webapi.py:152-208) for a
client whose `self.url`, `self.user` and `self.ltoken` are given; `ord` is
the completion order in which the parallel detail tasks yield their
results. -/
def get_klocwork_issues (transport : Transport) (relpath : RelpathOracle)
    (url user ltoken build project : String) (project_root : Option String)
    (ord : List Nat) : Except PyErr (List Rec) := do
  let common : Rec := [("user", .s user), ("ltoken", .s ltoken)]
  let issues_response :=
    (fetch transport url
      [("action", .s "search"), ("project", .s project), ("build", .s build)]
      common).2
  let (issues_table, issue_details_requests) ← build_phase1 project issues_response [] []
  let issues_details_response :=
    multifetch_yield transport url issue_details_requests common ord
  let issues_table ← merge_details issues_table issues_details_response
  (issues_table.map Prod.snd).mapM (derive_issue relpath project_root)

/-- The transport of the spec's Issue Assembler example (spec 8.5): the
search phase returns one issue with id "1", code "Analyze", location
"/a/b/c" and an empty history; the detail phase returns id "1" with
severity "High". -/
def exampleTransport : Transport := fun _ params =>
  match rget params "action" with
  | some (.s "search") =>
    [[("id", JVal.s "1"), ("code", JVal.s "Analyze"),
      ("location", JVal.s "/a/b/c"), ("history", JVal.arr [])]]
  | _ => [[("id", JVal.s "1"), ("severity", JVal.s "High")]]

/-- A transport echoing the merged request parameters back as the single
decoded record, used to instantiate the refinement statements on concrete
inputs. -/
def echoTransport : Transport := fun _ params => [params]

theorem rget_eq_none (r : Rec) (k : String) (h : k ∉ r.map Prod.fst) : rget r k = none := by
  induction r with
  | nil => rfl
  | cons e r ih =>
    obtain ⟨k₀, v₀⟩ := e
    simp only [List.map_cons, List.mem_cons, not_or] at h
    have hne : ¬k₀ = k := fun hh => h.1 hh.symm
    simp [rget, hne, ih h.2]

theorem rget_rset_self (r : Rec) (k : String) (v : JVal) : rget (rset r k v) k = some v := by
  induction r with
  | nil => simp [rset, rget]
  | cons e r ih =>
    obtain ⟨k₀, v₀⟩ := e
    by_cases h : k₀ = k <;> simp [rset, rget, h, ih]

theorem rget_rset_ne (r : Rec) (k k' : String) (v : JVal) (h : k ≠ k') :
    rget (rset r k v) k' = rget r k' := by
  induction r with
  | nil => simp [rset, rget, fun hh : k = k' => h hh]
  | cons e r ih =>
    obtain ⟨k₀, v₀⟩ := e
    by_cases h0 : k₀ = k
    · subst h0
      simp [rset, rget, fun hh : k₀ = k' => h hh]
    · by_cases h1 : k₀ = k'
      · subst h1
        simp [rset, rget, h0]
      · simp [rset, rget, h0, h1, ih]

/-- The value-level effect of `params.update(common_params)`: common keys
win, all other keys are read through unchanged. -/
theorem rget_rupdate (p common : Rec) (hc : (common.map Prod.fst).Nodup) (k : String) :
    rget (rupdate p common) k =
      if (rget common k).isSome then rget common k else rget p k := by
  induction common generalizing p with
  | nil => simp [rupdate, rget]
  | cons e c ih =>
    obtain ⟨k₀, v₀⟩ := e
    simp only [List.map_cons, List.nodup_cons] at hc
    have hupd : rupdate p ((k₀, v₀) :: c) = rupdate (rset p k₀ v₀) c := by
      simp [rupdate]
    rw [hupd, ih (rset p k₀ v₀) hc.2]
    by_cases h : k₀ = k
    · subst h
      have hnone : rget c k₀ = none := rget_eq_none c k₀ hc.1
      simp [rget, hnone, rget_rset_self]
    · simp [rget, h, rget_rset_ne p k₀ k v₀ h]

/-- C7: Parameter-merge overwrite policy of `fetch`: the merged dict a
request is issued with — the post-state of `params.update(common_params)`
— holds every key of both dicts; a key present in both carries the common
dict's value, and keys present only in the per-request dict keep their
per-request values. -/
theorem fetch_merge_overwrite_policy (transport : Transport) (url : String)
    (params common_params : Rec) (hc : (common_params.map Prod.fst).Nodup) :
    (fetch transport url params common_params).1 = rupdate params common_params ∧
    (∀ k, (rget (rupdate params common_params) k).isSome =
        ((rget params k).isSome || (rget common_params k).isSome)) ∧
    (∀ k v, rget common_params k = some v →
        rget (rupdate params common_params) k = some v) ∧
    (∀ k, rget common_params k = none →
        rget (rupdate params common_params) k = rget params k) := by
  refine ⟨rfl, fun k => ?_, fun k v hv => ?_, fun k hn => ?_⟩
  · rw [rget_rupdate params common_params hc k]
    cases hco : rget common_params k <;> simp [hco]
  · rw [rget_rupdate params common_params hc k, hv]
    simp
  · rw [rget_rupdate params common_params hc k, hn]
    simp

/-- Witness for `fetch_merge_overwrite_policy` at a concrete input. -/
theorem fetch_merge_overwrite_policy_witness :
    (([("b", JVal.s "9"), ("c", JVal.s "3")].map (Prod.fst (β := JVal))).Nodup) ∧
    rget (rupdate [("a", JVal.s "1"), ("b", JVal.s "2")]
      [("b", JVal.s "9"), ("c", JVal.s "3")]) "b" = some (JVal.s "9") ∧
    rget (rupdate [("a", JVal.s "1"), ("b", JVal.s "2")]
      [("b", JVal.s "9"), ("c", JVal.s "3")]) "a" = rget [("a", JVal.s "1"), ("b", JVal.s "2")] "a" := by
  have h := fetch_merge_overwrite_policy echoTransport "u"
    [("a", JVal.s "1"), ("b", JVal.s "2")] [("b", JVal.s "9"), ("c", JVal.s "3")]
    (by simp)
  exact ⟨by simp, h.2.2.1 "b" (JVal.s "9") rfl, h.2.2.2 "a" rfl⟩

/-- C10: `fetch` and `multifetch` mutate the caller's parameter dicts in
place.  In the explicit-state embedding: the post-state of the `params`
dict after `fetch` is `rupdate params common_params`, every dict of the
list passed to `multifetch` is replaced by its updated state before any
dispatch, each common parameter is present in the post-state with the
common value (overwriting equal-named keys), and every other key reads
back unchanged. -/
theorem fetch_multifetch_mutate_caller_params (transport : Transport) (url : String)
    (params common_params : Rec) (ps : List Rec)
    (hc : (common_params.map Prod.fst).Nodup) :
    (fetch transport url params common_params).1 = rupdate params common_params ∧
    multifetch_params ps common_params = ps.map (fun p => rupdate p common_params) ∧
    (∀ k v, rget common_params k = some v →
        rget (rupdate params common_params) k = some v) ∧
    (∀ k, rget common_params k = none →
        rget (rupdate params common_params) k = rget params k) := by
  refine ⟨rfl, rfl, fun k v hv => ?_, fun k hn => ?_⟩
  · rw [rget_rupdate params common_params hc k, hv]
    simp
  · rw [rget_rupdate params common_params hc k, hn]
    simp

/-- Witness for `fetch_multifetch_mutate_caller_params` at a concrete
input: the post-state is a genuinely modified dict. -/
theorem fetch_multifetch_mutate_caller_params_witness :
    (fetch echoTransport "u" [("action", JVal.s "search")]
      [("user", JVal.s "me"), ("ltoken", JVal.s "t")]).1 =
      [("action", JVal.s "search"), ("user", JVal.s "me"), ("ltoken", JVal.s "t")] ∧
    rget (rupdate [("action", JVal.s "search")]
      [("user", JVal.s "me"), ("ltoken", JVal.s "t")]) "user" = some (JVal.s "me") := by
  have h := fetch_multifetch_mutate_caller_params echoTransport "u"
    [("action", JVal.s "search")] [("user", JVal.s "me"), ("ltoken", JVal.s "t")] []
    (by simp)
  exact ⟨rfl, h.2.2.1 "user" (JVal.s "me") rfl⟩

theorem getD_range_map {α : Type} (L : List α) (d : α) :
    (List.range L.length).map (fun i => L.getD i d) = L := by
  apply List.ext_getElem
  · simp
  · intro i h1 h2
    simp only [List.getElem_map, List.getElem_range]
    exact List.getD_eq_getElem L d h2

/-- What `multifetch` dispatches is one `fetch` per parameter dict: the
worker tasks compute exactly the serial fetch results. -/
theorem multifetch_eq_map (transport : Transport) (url : String)
    (params : List Rec) (common_params : Rec) :
    multifetch transport url params common_params =
      params.map (fun p => (fetch transport url p common_params).2) := by
  cases params with
  | nil => rfl
  | cons p ps =>
    have hpos : multifetch_threads (p :: ps) > 0 := by
      simp only [multifetch_threads, MAX_PARALLEL_FETCH_COUNT, List.length_cons]
      omega
    simp [multifetch, hpos, multifetch_params, MultiFetchHelper.fetch, fetch]

/-- C2: with k parameter dicts, `multifetch` issues exactly k fetch calls,
its pool holds at most min(k, 20) workers, the results it yields in any
completion order are a permutation of the k serial `fetch` results on the
same requests, and with k = 0 it returns the empty sequence and creates no
pool. -/
theorem multifetch_refines_serial_fetch (transport : Transport) (url : String)
    (params : List Rec) (common_params : Rec) (ord : List Nat)
    (hord : ord.Perm (List.range params.length)) :
    (multifetch transport url params common_params).length = params.length ∧
    (∀ t, multifetch_pool params = some t →
        t ≤ min params.length MAX_PARALLEL_FETCH_COUNT) ∧
    (multifetch_yield transport url params common_params ord).Perm
      (params.map (fun p => (fetch transport url p common_params).2)) ∧
    (params = [] → multifetch transport url params common_params = [] ∧
        multifetch_pool params = none) := by
  have hm := multifetch_eq_map transport url params common_params
  have hlen : (multifetch transport url params common_params).length = params.length := by
    rw [hm, List.length_map]
  refine ⟨hlen, fun t ht => ?_, ?_, fun hnil => ?_⟩
  · simp only [multifetch_pool] at ht
    split at ht
    · injection ht with h
      exact le_of_eq h.symm
    · cases ht
  · have h3 : (List.range params.length).map
        (fun i => (multifetch transport url params common_params).getD i []) =
        multifetch transport url params common_params := by
      rw [← hlen]
      exact getD_range_map _ []
    have h2 := hord.map (fun i => (multifetch transport url params common_params).getD i [])
    rw [h3] at h2
    have hy : multifetch_yield transport url params common_params ord =
        ord.map (fun i => (multifetch transport url params common_params).getD i []) := rfl
    rw [hy, ← hm]
    exact h2
  · subst hnil
    exact ⟨rfl, rfl⟩

/-- Witness for `multifetch_refines_serial_fetch` at a concrete input with
two requests yielded in reversed completion order. -/
theorem multifetch_refines_serial_fetch_witness :
    ([1, 0] : List Nat).Perm (List.range 2) ∧
    (multifetch_yield echoTransport "u" [[("a", JVal.s "1")], [("b", JVal.s "2")]]
      [("user", JVal.s "x")] [1, 0]).Perm
      ([[("a", JVal.s "1")], [("b", JVal.s "2")]].map
        (fun p => (fetch echoTransport "u" p [("user", JVal.s "x")]).2)) := by
  refine ⟨by decide, ?_⟩
  exact (multifetch_refines_serial_fetch echoTransport "u"
    [[("a", JVal.s "1")], [("b", JVal.s "2")]] [("user", JVal.s "x")] [1, 0]
    (by decide)).2.2.1

theorem except_bind_ok {α β : Type} (a : α) (f : α → Except PyErr β) :
    (Except.ok a >>= f) = f a := rfl

theorem except_bind_error {α β : Type} (e : PyErr) (f : α → Except PyErr β) :
    ((Except.error e : Except PyErr α) >>= f) = .error e := rfl

theorem tmerge_error_eq (t : Table) (i : JVal) (r : Rec) (e : PyErr)
    (h : tmerge t i r = .error e) : e = .keyError := by
  induction t generalizing e with
  | nil =>
    simp only [tmerge] at h
    cases h
    rfl
  | cons kv t ih =>
    obtain ⟨k, entry⟩ := kv
    simp only [tmerge] at h
    split at h
    · cases h
    · cases htm : tmerge t i r with
      | ok t₂ => rw [htm] at h; cases h
      | error e₂ =>
        rw [htm] at h
        simp only [Except.map] at h
        injection h with he
        exact he ▸ ih e₂ htm

theorem tmerge_ok_keys (t : Table) (i : JVal) (r : Rec) (t' : Table)
    (h : tmerge t i r = .ok t') : t'.map Prod.fst = t.map Prod.fst := by
  induction t generalizing t' with
  | nil => simp only [tmerge] at h; cases h
  | cons kv t ih =>
    obtain ⟨k, entry⟩ := kv
    simp only [tmerge] at h
    split at h
    · cases h
      simp
    · cases htm : tmerge t i r with
      | ok t₂ =>
        rw [htm] at h
        simp only [Except.map] at h
        cases h
        simp [ih t₂ htm]
      | error e₂ => rw [htm] at h; simp only [Except.map] at h; cases h

theorem tmerge_ok_tget_none (t : Table) (i : JVal) (r : Rec) (t' : Table) (x : JVal)
    (h : tmerge t i r = .ok t') (hx : tget t x = none) : tget t' x = none := by
  induction t generalizing t' with
  | nil => simp only [tmerge] at h; cases h
  | cons kv t ih =>
    obtain ⟨k, entry⟩ := kv
    simp only [tget] at hx
    by_cases hk : jeq k x
    · simp [hk] at hx
    · rw [if_neg hk] at hx
      simp only [tmerge] at h
      split at h
      · cases h
        simp [tget, hk, hx]
      · cases htm : tmerge t i r with
        | ok t₂ =>
          rw [htm] at h
          simp only [Except.map] at h
          cases h
          simp only [tget, if_neg hk]
          exact ih t₂ htm hx
        | error e₂ => rw [htm] at h; simp only [Except.map] at h; cases h

theorem tmerge_error_of_none (t : Table) (i : JVal) (r : Rec) (h : tget t i = none) :
    tmerge t i r = .error .keyError := by
  induction t with
  | nil => rfl
  | cons kv t ih =>
    obtain ⟨k, entry⟩ := kv
    simp only [tget] at h
    by_cases hk : jeq k i
    · simp [hk] at h
    · rw [if_neg hk] at h
      simp only [tmerge, if_neg hk]
      rw [ih h]
      rfl

theorem merge_one_error_eq (t : Table) (r : Rec) (e : PyErr)
    (h : merge_one t r = .error e) : e = .keyError := by
  simp only [merge_one] at h
  split at h
  · cases h; rfl
  · exact tmerge_error_eq t _ r e h

theorem merge_one_ok_keys (t : Table) (r : Rec) (t' : Table)
    (h : merge_one t r = .ok t') : t'.map Prod.fst = t.map Prod.fst := by
  simp only [merge_one] at h
  split at h
  · cases h
  · exact tmerge_ok_keys t _ r t' h

theorem merge_one_ok_tget_none (t : Table) (r : Rec) (t' : Table) (x : JVal)
    (h : merge_one t r = .ok t') (hx : tget t x = none) : tget t' x = none := by
  simp only [merge_one] at h
  split at h
  · cases h
  · exact tmerge_ok_tget_none t _ r t' x h hx

theorem merge_one_error_of (t : Table) (r : Rec) (i : JVal)
    (hid : rget r "id" = some i) (hnone : tget t i = none) :
    merge_one t r = .error .keyError := by
  simp only [merge_one, hid]
  exact tmerge_error_of_none t i r hnone

theorem foldlM_merge_keys (rs : List Rec) (t t' : Table)
    (h : rs.foldlM merge_one t = .ok t') : t'.map Prod.fst = t.map Prod.fst := by
  induction rs generalizing t with
  | nil =>
    simp only [List.foldlM_nil] at h
    cases h
    rfl
  | cons r rs ih =>
    rw [List.foldlM_cons] at h
    cases hm : merge_one t r with
    | ok t₁ =>
      rw [hm, except_bind_ok] at h
      rw [ih t₁ h, merge_one_ok_keys t r t₁ hm]
    | error e => rw [hm, except_bind_error] at h; cases h

theorem foldlM_merge_tget_none (rs : List Rec) (t t' : Table) (x : JVal)
    (h : rs.foldlM merge_one t = .ok t') (hx : tget t x = none) : tget t' x = none := by
  induction rs generalizing t with
  | nil =>
    simp only [List.foldlM_nil] at h
    cases h
    exact hx
  | cons r rs ih =>
    rw [List.foldlM_cons] at h
    cases hm : merge_one t r with
    | ok t₁ =>
      rw [hm, except_bind_ok] at h
      exact ih t₁ h (merge_one_ok_tget_none t r t₁ x hm hx)
    | error e => rw [hm, except_bind_error] at h; cases h

theorem foldlM_merge_error_eq (rs : List Rec) (t : Table) (e : PyErr)
    (h : rs.foldlM merge_one t = .error e) : e = .keyError := by
  induction rs generalizing t with
  | nil => simp only [List.foldlM_nil] at h; cases h
  | cons r rs ih =>
    rw [List.foldlM_cons] at h
    cases hm : merge_one t r with
    | ok t₁ => rw [hm, except_bind_ok] at h; exact ih t₁ h
    | error e₁ =>
      rw [hm, except_bind_error] at h
      injection h with he
      exact he ▸ merge_one_error_eq t r e₁ hm

theorem foldlM_merge_error_of (rs : List Rec) (t : Table)
    (hoff : ∃ r ∈ rs, ∃ i, rget r "id" = some i ∧ tget t i = none) :
    rs.foldlM merge_one t = .error .keyError := by
  induction rs generalizing t with
  | nil => simp at hoff
  | cons r rs ih =>
    obtain ⟨r₀, hr₀, i, hid, hnone⟩ := hoff
    rw [List.foldlM_cons]
    cases hm : merge_one t r with
    | ok t₁ =>
      rw [except_bind_ok]
      rcases List.mem_cons.mp hr₀ with heq | hmem
      · subst heq
        rw [merge_one_error_of t r₀ i hid hnone] at hm
        cases hm
      · exact ih t₁ ⟨r₀, hmem, i, hid, merge_one_ok_tget_none t r t₁ i hm hnone⟩
    | error e =>
      rw [except_bind_error]
      rw [merge_one_error_eq t r e hm]

theorem merge_details_keys (responses : List (List Rec)) (t t' : Table)
    (h : merge_details t responses = .ok t') : t'.map Prod.fst = t.map Prod.fst := by
  induction responses generalizing t with
  | nil =>
    simp only [merge_details, List.foldlM_nil] at h
    cases h
    rfl
  | cons rs rss ih =>
    simp only [merge_details, List.foldlM_cons] at h ih
    cases hm : rs.foldlM merge_one t with
    | ok t₁ =>
      rw [hm, except_bind_ok] at h
      rw [ih t₁ h, foldlM_merge_keys rs t t₁ hm]
    | error e => rw [hm, except_bind_error] at h; cases h

theorem merge_details_tget_none (responses : List (List Rec)) (t t' : Table) (x : JVal)
    (h : merge_details t responses = .ok t') (hx : tget t x = none) : tget t' x = none := by
  induction responses generalizing t with
  | nil =>
    simp only [merge_details, List.foldlM_nil] at h
    cases h
    exact hx
  | cons rs rss ih =>
    simp only [merge_details, List.foldlM_cons] at h ih
    cases hm : rs.foldlM merge_one t with
    | ok t₁ =>
      rw [hm, except_bind_ok] at h
      exact ih t₁ h (foldlM_merge_tget_none rs t t₁ x hm hx)
    | error e => rw [hm, except_bind_error] at h; cases h

theorem merge_details_error_of (responses : List (List Rec)) (t : Table)
    (hoff : ∃ response ∈ responses, ∃ r ∈ response, ∃ i,
        rget r "id" = some i ∧ tget t i = none) :
    merge_details t responses = .error .keyError := by
  induction responses generalizing t with
  | nil => simp at hoff
  | cons rs rss ih =>
    obtain ⟨rs₀, hrs₀, r₀, hr₀, i, hid, hnone⟩ := hoff
    simp only [merge_details, List.foldlM_cons] at ih ⊢
    cases hm : rs.foldlM merge_one t with
    | ok t₁ =>
      rw [except_bind_ok]
      rcases List.mem_cons.mp hrs₀ with heq | hmem
      · subst heq
        rw [foldlM_merge_error_of rs₀ t ⟨r₀, hr₀, i, hid, hnone⟩] at hm
        cases hm
      · exact ih t₁ ⟨rs₀, hmem, r₀, hr₀, i, hid,
          foldlM_merge_tget_none rs t t₁ i hm hnone⟩
    | error e =>
      rw [except_bind_error]
      rw [foldlM_merge_error_eq rs t e hm]

/-- C4: unknown id during the detail merge.  When the detail merge of
`get_klocwork_issues` succeeds, the key set of the issue table is exactly
the Phase-1 key set — no new issue id is ever added; and when any detail
record carries an id that is not a key of the table, the merge raises
(`KeyError`) rather than silently dropping the record or creating a new
entry. -/
theorem detail_merge_unknown_id_errors (issues_table : Table)
    (responses : List (List Rec)) :
    (∀ t', merge_details issues_table responses = .ok t' →
        t'.map Prod.fst = issues_table.map Prod.fst) ∧
    ((∃ response ∈ responses, ∃ r ∈ response, ∃ i,
        rget r "id" = some i ∧ tget issues_table i = none) →
      merge_details issues_table responses = .error .keyError) :=
  ⟨fun t' h => merge_details_keys responses issues_table t' h,
   fun hoff => merge_details_error_of responses issues_table hoff⟩

/-- Witness for `detail_merge_unknown_id_errors`: a table with the single
key "1"; a known-id response preserves the key set, an unknown-id response
raises `KeyError`. -/
theorem detail_merge_unknown_id_errors_witness :
    merge_details [(JVal.s "1", [("id", JVal.s "1")])]
      [[[("id", JVal.s "1"), ("severity", JVal.s "High")]]] =
      .ok [(JVal.s "1", [("id", JVal.s "1"), ("severity", JVal.s "High")])] ∧
    ([(JVal.s "1", [("id", JVal.s "1"), ("severity", JVal.s "High")])].map
      (Prod.fst (β := Rec))) = [(JVal.s "1", [("id", JVal.s "1")])].map Prod.fst ∧
    merge_details [(JVal.s "1", [("id", JVal.s "1")])]
      [[[("id", JVal.s "2"), ("severity", JVal.s "High")]]] = .error .keyError := by
  refine ⟨rfl, ?_, ?_⟩
  · exact (detail_merge_unknown_id_errors [(JVal.s "1", [("id", JVal.s "1")])]
      [[[("id", JVal.s "1"), ("severity", JVal.s "High")]]]).1 _ rfl
  · exact (detail_merge_unknown_id_errors [(JVal.s "1", [("id", JVal.s "1")])]
      [[[("id", JVal.s "2"), ("severity", JVal.s "High")]]]).2
      ⟨[[("id", JVal.s "2"), ("severity", JVal.s "High")]], by simp,
       [("id", JVal.s "2"), ("severity", JVal.s "High")], by simp,
       JVal.s "2", rfl, rfl⟩

theorem tget_tset_isSome_of (t : Table) (k x : JVal) (v : Rec)
    (h : (tget t x).isSome = true) : (tget (tset t k v) x).isSome = true := by
  induction t with
  | nil => simp [tget] at h
  | cons kv t ih =>
    obtain ⟨k₀, v₀⟩ := kv
    by_cases hk : jeq k₀ k
    · simp only [tset, if_pos hk]
      by_cases hx : jeq k₀ x
      · simp [tget, hx]
      · simp only [tget, if_neg hx] at h ⊢
        exact h
    · simp only [tset, if_neg hk]
      by_cases hx : jeq k₀ x
      · simp [tget, hx]
      · simp only [tget, if_neg hx] at h ⊢
        exact ih h

theorem tget_tset_s_self (t : Table) (a : String) (v : Rec) :
    (tget (tset t (JVal.s a) v) (JVal.s a)).isSome = true := by
  induction t with
  | nil => simp [tset, tget, jeq]
  | cons kv t ih =>
    obtain ⟨k₀, v₀⟩ := kv
    by_cases hk : jeq k₀ (JVal.s a)
    · simp [tset, hk, tget]
    · simp [tset, hk, tget, ih]

/-- Phase 1 establishes: every issue of the search response has its
stringified id as a key of the built table (and previously present keys
survive). -/
theorem build_phase1_tget (project : String) (resp : List Rec)
    (t₀ : Table) (reqs₀ : List Rec) (issues_table : Table) (reqs : List Rec)
    (h : build_phase1 project resp t₀ reqs₀ = .ok (issues_table, reqs)) :
    (∀ x, (tget t₀ x).isSome = true → (tget issues_table x).isSome = true) ∧
    (∀ issue ∈ resp, ∀ i, rget issue "id" = some i →
        (tget issues_table (JVal.s (pyStr i))).isSome = true) := by
  induction resp generalizing t₀ reqs₀ with
  | nil =>
    simp only [build_phase1] at h
    cases h
    exact ⟨fun x hx => hx, by simp⟩
  | cons issue rest ih =>
    simp only [build_phase1] at h
    cases hid : rget issue "id" with
    | none => rw [hid] at h; cases h
    | some v =>
      rw [hid] at h
      have ihh := ih _ _ h
      refine ⟨fun x hx => ihh.1 x (tget_tset_isSome_of _ _ _ _ hx), ?_⟩
      intro iss hmem i hi
      rcases List.mem_cons.mp hmem with heq | hmem'
      · subst heq
        rw [hid] at hi
        injection hi with hv
        subst hv
        exact ihh.1 _ (tget_tset_s_self t₀ _ _)
      · exact ihh.2 iss hmem' i hi

/-- C5 fails as stated: with a numeric id, Phase 1 keys the table by the
string "1" while the detail request carries the number 1; when the server
echoes the requested id back with its numeric type, the merge lookup
`issues_table[r['id']]` finds nothing and raises `KeyError` instead of
updating the entry built for that very id. -/
theorem detail_merge_numeric_id_counterexample :
    build_phase1 "p" [[("id", JVal.n 1)]] [] [] =
      .ok ([(JVal.s "1", [("id", JVal.n 1)])],
           [[("action", JVal.s "issue_details"), ("project", JVal.s "p"),
             ("id", JVal.n 1)]]) ∧
    tget [(JVal.s "1", [("id", JVal.n 1)])] (JVal.n 1) = none ∧
    merge_details [(JVal.s "1", [("id", JVal.n 1)])]
      [[[("id", JVal.n 1), ("severity", JVal.s "High")]]] = .error .keyError :=
  ⟨rfl, rfl, rfl⟩

/-- C5 (amended): the Issue Table is keyed by the stringified id of each
Phase-1 record, so the merge lookup finds an existing entry precisely for
detail ids equal to the stringified form of a requested id: for every
Phase-1 record with id value `i`, the key `JVal.s (pyStr i)` is present in
the built table.  (For a detail id carried with any other type or
representation — e.g. the number 1 against the key "1" — the lookup raises
`KeyError`, see the counterexample.) -/
theorem detail_merge_targets_exist_for_stringified_ids (project : String)
    (resp : List Rec) (issues_table : Table) (reqs : List Rec)
    (h : build_phase1 project resp [] [] = .ok (issues_table, reqs))
    (issue : Rec) (hmem : issue ∈ resp) (i : JVal) (hid : rget issue "id" = some i) :
    (tget issues_table (JVal.s (pyStr i))).isSome = true :=
  (build_phase1_tget project resp [] [] issues_table reqs h).2 issue hmem i hid

/-- Witness for `detail_merge_targets_exist_for_stringified_ids`. -/
theorem detail_merge_targets_exist_for_stringified_ids_witness :
    [("id", JVal.n 7)] ∈ [[("id", JVal.n 7)]] ∧
    (tget [(JVal.s "7", [("id", JVal.n 7)])] (JVal.s "7")).isSome = true := by
  constructor
  · simp
  · exact detail_merge_targets_exist_for_stringified_ids "p" [[("id", JVal.n 7)]]
      [(JVal.s "7", [("id", JVal.n 7)])]
      [[("action", JVal.s "issue_details"), ("project", JVal.s "p"), ("id", JVal.n 7)]]
      rfl [("id", JVal.n 7)] (by simp) (JVal.n 7) rfl

/-- C1: the derived-comment rule fails on the code.  On the spec's own
Issue Assembler example — search response
`[{id:"1", code:"Analyze", location:"/a/b/c", history:[]}]` merged with
detail `{id:"1", severity:"High"}` — the claim demands an assembled record
with `comment=""` and `dispositioned="no"`, but
`issue.get('history', [{}])[0]` subscripts the present-but-empty history
list and `get_klocwork_issues` raises `IndexError` instead of returning
any record; the isolated derivation step on the merged record raises the
same error.  (The rule does hold when `history` is absent or non-empty;
the failure is exactly the present-and-empty case the claim writes "and
equals the empty string otherwise" for.) -/
theorem assembled_comment_empty_history_raises :
    get_klocwork_issues exampleTransport (fun _ _ => none) "http://h:80/review/api"
      "u" "tok" "b1" "p1" none [0] = .error .indexError ∧
    derive_issue (fun _ _ => none) none
      [("id", JVal.s "1"), ("code", JVal.s "Analyze"), ("location", JVal.s "/a/b/c"),
       ("history", JVal.arr []), ("severity", JVal.s "High")] = .error .indexError :=
  ⟨rfl, rfl⟩

/-- Python `==` against a string literal decides equality with `JVal.s`. -/
theorem jeq_s_iff (v : JVal) (a : String) : jeq v (JVal.s a) = true ↔ v = JVal.s a := by
  cases v <;> simp [jeq]

/-- C3 (amended): for every successfully derived issue, `dispositioned` is
"no" exactly when the derived comment is Python-falsy (for the string
comments of the data model: the empty string) or the `code` field equals
the literal "Analyze", and "yes" otherwise.  (The code tests
`if not issue['comment']`, truthiness rather than string emptiness — see
the counterexample with the falsy non-string comment 0.) -/
theorem disposition_rule_falsy (relpath : RelpathOracle) (project_root : Option String)
    (issue out : Rec) (comment code : JVal)
    (h : derive_issue relpath project_root issue = .ok out)
    (hc : rget out "comment" = some comment) (hcode : rget out "code" = some code) :
    (rget out "dispositioned" = some (JVal.s "no") ∨
     rget out "dispositioned" = some (JVal.s "yes")) ∧
    (rget out "dispositioned" = some (JVal.s "no") ↔
      (pyFalsy comment = true ∨ code = JVal.s "Analyze")) := by
  simp only [derive_issue] at h
  cases hh : (rget issue "history").getD (JVal.arr [JVal.obj []]) with
  | s a => rw [hh] at h; simp [bind, Except.bind] at h
  | n a => rw [hh] at h; simp [bind, Except.bind] at h
  | obj o => rw [hh] at h; simp [bind, Except.bind] at h
  | arr l =>
    rw [hh] at h
    cases l with
    | nil => simp [bind, Except.bind] at h
    | cons first rest =>
      cases first with
      | s a => simp [bind, Except.bind] at h
      | n a => simp [bind, Except.bind] at h
      | arr l2 => simp [bind, Except.bind] at h
      | obj o =>
        simp only [bind, Except.bind] at h
        rw [rget_rset_self issue "comment" ((rget o "comment").getD (JVal.s ""))] at h
        simp only [] at h
        by_cases hf : pyFalsy ((rget o "comment").getD (JVal.s "")) = true
        · rw [if_pos hf] at h
          cases hl : rget (rset (rset issue "comment" ((rget o "comment").getD (JVal.s "")))
              "dispositioned" (JVal.s "no")) "location" with
          | none => rw [hl] at h; simp at h
          | some lv =>
            rw [hl] at h
            cases lv with
            | n a => simp at h
            | arr a => simp at h
            | obj a => simp at h
            | s l =>
              simp only [] at h
              injection h with hout
              subst hout
              rw [rget_rset_ne _ _ _ _ (by decide), rget_rset_ne _ _ _ _ (by decide),
                rget_rset_self] at hc
              injection hc with hcm
              subst hcm
              rw [rget_rset_ne _ _ _ _
                  (show ("location" : String) ≠ "dispositioned" by decide),
                rget_rset_self]
              simp [hf]
        · rw [if_neg hf] at h
          rw [rget_rset_ne issue "comment" "code"
            ((rget o "comment").getD (JVal.s "")) (by decide)] at h
          cases hcd : rget issue "code" with
          | none => rw [hcd] at h; simp at h
          | some codev =>
            rw [hcd] at h
            simp only [] at h
            cases hl : rget (rset (rset issue "comment" ((rget o "comment").getD (JVal.s "")))
                "dispositioned" (if jeq codev (JVal.s "Analyze") = true then JVal.s "no"
                  else JVal.s "yes")) "location" with
            | none => rw [hl] at h; simp at h
            | some lv =>
              rw [hl] at h
              cases lv with
              | n a => simp at h
              | arr a => simp at h
              | obj a => simp at h
              | s l =>
                simp only [] at h
                injection h with hout
                subst hout
                rw [rget_rset_ne _ _ _ _ (by decide), rget_rset_ne _ _ _ _ (by decide),
                  rget_rset_self] at hc
                injection hc with hcm
                subst hcm
                rw [rget_rset_ne _ _ _ _ (by decide), rget_rset_ne _ _ _ _ (by decide),
                  rget_rset_ne _ _ _ _ (by decide), hcd] at hcode
                injection hcode with hcodev
                subst hcodev
                rw [rget_rset_ne _ _ _ _
                    (show ("location" : String) ≠ "dispositioned" by decide),
                  rget_rset_self]
                by_cases hj : jeq codev (JVal.s "Analyze") = true
                · have hcA : codev = JVal.s "Analyze" := (jeq_s_iff codev "Analyze").mp hj
                  rw [if_pos hj]
                  simp [hcA]
                · have hcA : ¬ codev = JVal.s "Analyze" :=
                    fun hE => hj ((jeq_s_iff codev "Analyze").mpr hE)
                  rw [if_neg hj]
                  simp [hf, hcA]

/-- C3 fails as stated: a history comment that is falsy but not the empty
string (the number 0) yields `dispositioned="no"` although the derived
comment is not the empty string and the code is not "Analyze": the source
tests Python truthiness (`if not issue['comment']`, webapi.py:195), not
string emptiness. -/
theorem disposition_truthiness_counterexample :
    derive_issue (fun _ _ => none) none
      [("code", JVal.s "Fix"), ("history", JVal.arr [JVal.obj [("comment", JVal.n 0)]]),
       ("location", JVal.s "/a")] =
      .ok [("code", JVal.s "Fix"), ("history", JVal.arr [JVal.obj [("comment", JVal.n 0)]]),
           ("location", JVal.s "/a"), ("comment", JVal.n 0), ("dispositioned", JVal.s "no")] ∧
    (JVal.n 0 ≠ JVal.s "") ∧ (JVal.s "Fix" ≠ JVal.s "Analyze") :=
  ⟨rfl, fun h => JVal.noConfusion h,
   fun h => JVal.noConfusion h (fun h2 => absurd h2 (by decide))⟩

/-- Witness for `disposition_rule_falsy` at the spec's example
`history=[{comment:"fixed"}]`, `code="Fix"`: dispositioned is "yes". -/
theorem disposition_rule_falsy_witness :
    rget [("code", JVal.s "Fix"),
      ("history", JVal.arr [JVal.obj [("comment", JVal.s "fixed")]]),
      ("location", JVal.s "/a"), ("comment", JVal.s "fixed"),
      ("dispositioned", JVal.s "yes")] "dispositioned" = some (JVal.s "yes") := by
  have h := disposition_rule_falsy (fun _ _ => none) none
    [("code", JVal.s "Fix"), ("history", JVal.arr [JVal.obj [("comment", JVal.s "fixed")]]),
     ("location", JVal.s "/a")]
    [("code", JVal.s "Fix"), ("history", JVal.arr [JVal.obj [("comment", JVal.s "fixed")]]),
     ("location", JVal.s "/a"), ("comment", JVal.s "fixed"), ("dispositioned", JVal.s "yes")]
    (JVal.s "fixed") (JVal.s "Fix") rfl rfl rfl
  rcases h.1 with hno | hyes
  · exfalso
    rcases h.2.mp hno with hfal | hana
    · simp [pyFalsy] at hfal
    · exact JVal.noConfusion hana (fun h2 => absurd h2 (by decide))
  · exact hyes

theorem getElem?_eq_some_getD {α : Type} (l : List α) (i : Nat) (d : α) (h : i < l.length) :
    l[i]? = some (l.getD i d) := by
  rw [List.getElem?_eq_getElem h, List.getD_eq_getElem l d h]

theorem get_token_scan_spec (fqdn : String → String) (host : String) (port : Nat)
    (preferred_user : Option String) (lines : List String)
    (hlen : ∀ l ∈ lines, fqdn ((splitFields l).headD "") = fqdn host →
        4 ≤ (splitFields l).length) :
    get_token_scan fqdn (fqdn host) port preferred_user lines =
      .ok (get_token_spec fqdn lines host port preferred_user) := by
  induction lines with
  | nil => rfl
  | cons entry rest ih =>
    have hrest : ∀ l ∈ rest, fqdn ((splitFields l).headD "") = fqdn host →
        4 ≤ (splitFields l).length :=
      fun l hl => hlen l (List.mem_cons_of_mem entry hl)
    have hspecrest := ih hrest
    by_cases hhost : fqdn ((splitFields entry).headD "") = fqdn host
    · have h4 : 4 ≤ (splitFields entry).length :=
        hlen entry (List.mem_cons_self entry rest) hhost
      have h1 : (splitFields entry)[1]? = some ((splitFields entry).getD 1 "") :=
        getElem?_eq_some_getD _ 1 "" (by omega)
      have h2 : (splitFields entry)[2]? = some ((splitFields entry).getD 2 "") :=
        getElem?_eq_some_getD _ 2 "" (by omega)
      have h3 : (splitFields entry)[3]? = some ((splitFields entry).getD 3 "") :=
        getElem?_eq_some_getD _ 3 "" (by omega)
      have hhost' : fqdn ((splitFields entry).head?.getD "") = fqdn host := by
        simpa using hhost
      by_cases hv1 : (splitFields entry).getD 1 "" = toString port
      · -- port matches: the entry is selected unless the user filter skips it
        have hv1' : (splitFields entry)[1]?.getD "" = toString port := by
          simpa using hv1
        cases preferred_user with
        | none =>
          have hmatch : token_line_matches fqdn host port none entry = true := by
            simp [token_line_matches, hhost', hv1']
          simp only [get_token_scan, if_pos hhost, h1, if_pos hv1, token_entry_return,
            h2, h3, get_token_spec, List.find?_cons_of_pos _ hmatch]
        | some pu =>
          by_cases hpu : pu = ""
          · subst hpu
            have hmatch : token_line_matches fqdn host port (some "") entry = true := by
              simp [token_line_matches, hhost', hv1']
            simp only [get_token_scan, if_pos hhost, h1, if_pos hv1, token_entry_return,
              h2, h3, get_token_spec, List.find?_cons_of_pos _ hmatch]
            simp
          · by_cases hv2 : (splitFields entry).getD 2 "" = pu
            · have hv2' : (splitFields entry)[2]?.getD "" = pu := by simpa using hv2
              have hmatch : token_line_matches fqdn host port (some pu) entry = true := by
                simp [token_line_matches, hhost', hv1', hv2']
              simp only [get_token_scan, if_pos hhost, h1, if_pos hv1, token_entry_return,
                h2, h3, get_token_spec, List.find?_cons_of_pos _ hmatch]
              simp [hpu, hv2']
            · have hv2' : ¬ (splitFields entry)[2]?.getD "" = pu := by simpa using hv2
              have hmatch : ¬ token_line_matches fqdn host port (some pu) entry = true := by
                simp [token_line_matches, hv2', hpu]
              simp only [get_token_scan, if_pos hhost, h1, if_pos hv1, h2,
                get_token_spec, List.find?_cons_of_neg _ hmatch]
              simp only [get_token_spec] at hspecrest
              simp [hpu, hv2', hspecrest]
      · have hv1' : ¬ (splitFields entry)[1]?.getD "" = toString port := by
          simpa using hv1
        have hmatch : ¬ token_line_matches fqdn host port preferred_user entry = true := by
          simp [token_line_matches, hv1']
        simp only [get_token_scan, if_pos hhost, h1, if_neg hv1,
          get_token_spec, List.find?_cons_of_neg _ hmatch]
        simp only [get_token_spec] at hspecrest
        exact hspecrest
    · have hhost' : ¬ fqdn ((splitFields entry).head?.getD "") = fqdn host := by
        simpa using hhost
      have hmatch : ¬ token_line_matches fqdn host port preferred_user entry = true := by
        simp [token_line_matches, hhost']
      simp only [get_token_scan, if_neg hhost,
        get_token_spec, List.find?_cons_of_neg _ hmatch]
      simp only [get_token_spec] at hspecrest
      exact hspecrest

/-- C6 fails as stated: on the credential file consisting of the single
line "x;80" — whose host and port match the request — `get_token` raises
`IndexError` at the `values[3]` subscript instead of returning a
token/user pair or the (None, None) "not found" signal; the claim's
universal quantification over file contents fails. -/
theorem get_token_short_line_counterexample :
    get_token (fun s => s) ["x;80"] "x" 80 none = .error .indexError := rfl

/-- C6 (amended): for every credential file in which each line whose
normalized host matches the normalized requested host splits into at
least four `;`-separated fields (the `host;port;user;token` format), and
for every host, port and optional preferred user, `get_token` returns —
without error — the token/user pair of the first line whose normalized
host and stringified port match, skipping lines whose user field differs
from the preferred user when a truthy one is given, and the (none, none)
"not found" signal when no line matches. -/
theorem get_token_first_match (fqdn : String → String) (lines : List String)
    (host : String) (port : Nat) (preferred_user : Option String)
    (hlen : ∀ l ∈ lines, fqdn ((splitFields l).headD "") = fqdn host →
        4 ≤ (splitFields l).length) :
    get_token fqdn lines host port preferred_user =
      .ok (get_token_spec fqdn lines host port preferred_user) :=
  get_token_scan_spec fqdn host port preferred_user lines hlen

/-- Witness for `get_token_first_match` on a one-line credential file. -/
theorem get_token_first_match_witness :
    (∀ l ∈ ["h;80;u;tok"],
        (fun s => s) ((splitFields l).headD "") = (fun s => s) "h" →
        4 ≤ (splitFields l).length) ∧
    get_token (fun s => s) ["h;80;u;tok"] "h" 80 none =
      .ok (get_token_spec (fun s => s) ["h;80;u;tok"] "h" 80 none) ∧
    get_token_spec (fun s => s) ["h;80;u;tok"] "h" 80 none = (some "tok", some "u") :=
  ⟨by decide,
   get_token_first_match (fun s => s) ["h;80;u;tok"] "h" 80 none (by decide), rfl⟩

theorem rfindAux_le (pat s : List Char) (n p : Nat) (h : rfindAux pat s n = some p) :
    p ≤ n := by
  induction n with
  | zero =>
    by_cases hc : pat.isPrefixOf s = true
    · simp only [rfindAux, if_pos hc] at h
      injection h with h1
      omega
    · simp only [rfindAux, if_neg hc] at h
      cases h
  | succ n ih =>
    by_cases hc : pat.isPrefixOf (s.drop (n + 1)) = true
    · simp only [rfindAux, if_pos hc] at h
      injection h with h1
      omega
    · simp only [rfindAux, if_neg hc] at h
      exact Nat.le_succ_of_le (ih h)

theorem rfindAux_found (pat s : List Char) (n p : Nat)
    (h : rfindAux pat s n = some p) : pat.isPrefixOf (s.drop p) = true := by
  induction n with
  | zero =>
    by_cases hc : pat.isPrefixOf s = true
    · simp only [rfindAux, if_pos hc] at h
      injection h with h1
      rw [← h1, List.drop_zero]
      exact hc
    · simp only [rfindAux, if_neg hc] at h
      cases h
  | succ n ih =>
    by_cases hc : pat.isPrefixOf (s.drop (n + 1)) = true
    · simp only [rfindAux, if_pos hc] at h
      injection h with h1
      rw [← h1]
      exact hc
    · simp only [rfindAux, if_neg hc] at h
      exact ih h

theorem rfindAux_max (pat s : List Char) (n p : Nat)
    (h : rfindAux pat s n = some p) :
    ∀ i, p < i → i ≤ n → pat.isPrefixOf (s.drop i) = false := by
  induction n with
  | zero =>
    intro i hpi hin
    have hp := rfindAux_le pat s 0 p h
    omega
  | succ n ih =>
    intro i hpi hin
    by_cases hc : pat.isPrefixOf (s.drop (n + 1)) = true
    · simp only [rfindAux, if_pos hc] at h
      injection h with h1
      omega
    · simp only [rfindAux, if_neg hc] at h
      rcases Nat.lt_or_ge i (n + 1) with hlt | hge
      · exact ih h i hpi (by omega)
      · have hieq : i = n + 1 := by omega
        subst hieq
        simp only [Bool.not_eq_true] at hc
        exact hc

theorem rfindAux_none (pat s : List Char) (n : Nat) (h : rfindAux pat s n = none) :
    ∀ i ≤ n, pat.isPrefixOf (s.drop i) = false := by
  induction n with
  | zero =>
    intro i hi
    by_cases hc : pat.isPrefixOf s = true
    · simp only [rfindAux, if_pos hc] at h
      cases h
    · have hieq : i = 0 := by omega
      subst hieq
      rw [List.drop_zero]
      simp only [Bool.not_eq_true] at hc
      exact hc
  | succ n ih =>
    intro i hi
    by_cases hc : pat.isPrefixOf (s.drop (n + 1)) = true
    · simp only [rfindAux, if_pos hc] at h
      cases h
    · simp only [rfindAux, if_neg hc] at h
      rcases Nat.lt_or_ge i (n + 1) with hlt | hge
      · exact ih h i (by omega)
      · have hieq : i = n + 1 := by omega
        subst hieq
        simp only [Bool.not_eq_true] at hc
        exact hc

theorem rfindAux_complete (pat s : List Char) (n q : Nat)
    (hq : pat.isPrefixOf (s.drop q) = true) (hqn : q ≤ n)
    (hmax : ∀ i, q < i → i ≤ n → pat.isPrefixOf (s.drop i) = false) :
    rfindAux pat s n = some q := by
  induction n with
  | zero =>
    have hqeq : q = 0 := by omega
    subst hqeq
    rw [List.drop_zero] at hq
    simp only [rfindAux, if_pos hq]
  | succ n ih =>
    by_cases hc : pat.isPrefixOf (s.drop (n + 1)) = true
    · rcases Nat.lt_or_ge q (n + 1) with hlt | hge
      · have hfalse := hmax (n + 1) hlt (Nat.le_refl _)
        rw [hfalse] at hc
        cases hc
      · have hqeq : q = n + 1 := by omega
        subst hqeq
        simp only [rfindAux, if_pos hc]
    · have hq' : q ≤ n := by
        rcases Nat.lt_or_ge q (n + 1) with hlt | hge
        · omega
        · exfalso
          have hqeq : q = n + 1 := by omega
          subst hqeq
          rw [hq] at hc
          exact hc rfl
      simp only [rfindAux, if_neg hc]
      exact ih hq' (fun i hqi hin => hmax i hqi (by omega))

theorem rfindAux_none_complete (pat s : List Char) (n : Nat)
    (h : ∀ i ≤ n, pat.isPrefixOf (s.drop i) = false) : rfindAux pat s n = none := by
  induction n with
  | zero =>
    have h0 := h 0 (Nat.le_refl _)
    rw [List.drop_zero] at h0
    simp [rfindAux, h0]
  | succ n ih =>
    have hsucc := h (n + 1) (Nat.le_refl _)
    simp only [rfindAux, hsucc]
    simp only [Bool.false_eq_true, if_false]
    exact ih (fun i hi => h i (by omega))

theorem prefixOf_drop_long (pat s : List Char) (hpat : pat ≠ []) (i : Nat)
    (hi : s.length ≤ i) : pat.isPrefixOf (s.drop i) = false := by
  have hdrop : s.drop i = [] := List.drop_eq_nil_of_le hi
  rw [hdrop]
  cases pat with
  | nil => exact absurd rfl hpat
  | cons c cs => rfl

theorem rfind_drop_self (pat s : List Char) (hpat : pat ≠ []) (p : Nat)
    (h : rfind pat s = some p) : rfind pat (s.drop p) = some 0 := by
  have hple : p ≤ s.length := rfindAux_le pat s s.length p h
  have hpre : pat.isPrefixOf (s.drop p) = true := rfindAux_found pat s s.length p h
  have hmax := rfindAux_max pat s s.length p h
  refine rfindAux_complete pat (s.drop p) (s.drop p).length 0 ?_ (Nat.zero_le _) ?_
  · rw [List.drop_zero]
    exact hpre
  · intro i h0i hile
    rw [List.drop_drop]
    rcases le_or_lt (p + i) s.length with hle | hgt
    · exact hmax (p + i) (by omega) hle
    · exact prefixOf_drop_long pat s hpat (p + i) (by omega)

theorem rfind_none_drop (pat s : List Char) (hpat : pat ≠ []) (q : Nat)
    (h : rfind pat s = none) : rfind pat (s.drop q) = none := by
  have hnone := rfindAux_none pat s s.length h
  apply rfindAux_none_complete
  intro i hi
  rw [List.drop_drop]
  rcases le_or_lt (q + i) s.length with hle | hgt
  · exact hnone (q + i) hle
  · exact prefixOf_drop_long pat s hpat (q + i) (by omega)

theorem strip_path_eq_drop (path : List Char) (roots : List (List Char)) :
    ∃ q, strip_path path roots = path.drop q := by
  induction roots with
  | nil => exact ⟨0, (List.drop_zero path).symm⟩
  | cons root rest ih =>
    cases hf : rfind (['/'] ++ normpath root ++ ['/']) path with
    | some pos =>
      simp only [strip_path, hf]
      exact ⟨pos, rfl⟩
    | none =>
      simp only [strip_path, hf]
      exact ih

/-- C8: `strip_path` is the identity on paths containing no occurrence of
a separator-wrapped normalized root, and it is idempotent: the returned
suffix starts at the last occurrence of the separator-root-separator
boundary of the first matching root, so a second application with the same
roots finds that boundary at position 0 and returns the result unchanged. -/
theorem strip_path_idempotent (path : List Char) (roots : List (List Char)) :
    ((∀ root ∈ roots, ∀ i ≤ path.length,
        (['/'] ++ normpath root ++ ['/']).isPrefixOf (path.drop i) = false) →
      strip_path path roots = path) ∧
    strip_path (strip_path path roots) roots = strip_path path roots := by
  constructor
  · intro hno
    induction roots with
    | nil => rfl
    | cons root rest ih =>
      have hn : rfind (['/'] ++ normpath root ++ ['/']) path = none :=
        rfindAux_none_complete _ path path.length
          (fun i hi => hno root (List.mem_cons_self root rest) i hi)
      simp only [strip_path, hn]
      exact ih (fun r hr => hno r (List.mem_cons_of_mem root hr))
  · induction roots with
    | nil => rfl
    | cons root rest ih =>
      cases hf : rfind (['/'] ++ normpath root ++ ['/']) path with
      | some pos =>
        simp only [strip_path, hf]
        have h0 : rfind (['/'] ++ normpath root ++ ['/']) (path.drop pos) = some 0 :=
          rfind_drop_self _ path (by simp) pos hf
        simp only [strip_path, h0, List.drop_zero]
      | none =>
        simp only [strip_path, hf]
        obtain ⟨q, hq⟩ := strip_path_eq_drop path rest
        have hn : rfind (['/'] ++ normpath root ++ ['/']) (strip_path path rest) = none := by
          rw [hq]
          exact rfind_none_drop _ path (by simp) q hf
        simp only [strip_path, hn]
        exact ih

/-- Witness for `strip_path_idempotent`: a path without the root pattern
and, for contrast, the idempotence equality on it. -/
theorem strip_path_idempotent_witness :
    (∀ root ∈ [['r']], ∀ i ≤ ("/a/b".toList).length,
        (['/'] ++ normpath root ++ ['/']).isPrefixOf (("/a/b".toList).drop i) = false) ∧
    strip_path "/a/b".toList [['r']] = "/a/b".toList ∧
    strip_path (strip_path "/a/b".toList [['r']]) [['r']] =
      strip_path "/a/b".toList [['r']] := by
  have h := strip_path_idempotent "/a/b".toList [['r']]
  exact ⟨by decide, h.1 (by decide), h.2⟩

end Klocwork
